import Mathlib

set_option maxHeartbeats 1000000

/-!
Shallow embedding of the font-scraper CSS extraction pipeline:
`src/utils.py`, `src/css_parser.py` and `src/font_detector.py`.

Strings are Lean `String`s; the character-level algorithms work on
`List Char`.  Python's `urllib.parse.urljoin` and the `path` component of
`urllib.parse.urlparse` are treated as oracle parameters (`resolve` and
`urlPath`): the code only composes them, so every theorem below is proved
for an arbitrary choice of these functions.
-/

/-- Python whitespace test for the ASCII characters matched by `str.strip()`
and the regex class `\s` (space, tab, newline, carriage return, vertical
tab, form feed). -/
def pyIsSpace (c : Char) : Bool :=
  c = ' ' || c = '\t' || c = '\n' || c = '\r' || c = '\x0b' || c = '\x0c'

/-- A quote character (double or single quote), as used in the quote
character classes of the regexes in `utils.py`. -/
def isQuoteC (c : Char) : Bool := c = '"' || c = '\''

/-- Python `str.strip()` on a list of characters. -/
def pyStripL (l : List Char) : List Char :=
  ((l.dropWhile pyIsSpace).reverse.dropWhile pyIsSpace).reverse

/-- Python `str.strip()` on strings. -/
def pyStrip (s : String) : String := (pyStripL s.toList).asString

/-- One pass of `re.sub(r'^["\x27]|["\x27]$', '', s)`: remove one leading
quote character if present (the `^` alternative), then one trailing quote
character of the remainder if present (the `$` alternative).  The two ends
are handled independently; no matching pair is required. -/
def dropLeadQuote (l : List Char) : List Char :=
  match l with
  | [] => []
  | c :: rest => if isQuoteC c then rest else c :: rest

/-- Remove one trailing quote character if present (see `dropLeadQuote`). -/
def dropTrailQuote (l : List Char) : List Char :=
  (dropLeadQuote l.reverse).reverse

/-- The combined quote-stripping regex substitution of
`normalize_font_name` / `clean_css_value` in `utils.py`. -/
def stripQuoteEnds (l : List Char) : List Char :=
  dropTrailQuote (dropLeadQuote l)

/-- Worker for `re.sub(r'\s+', ' ', s)`: the flag records whether the
previous character was part of a whitespace run already emitted as one
space. -/
def collapseWsGo : Bool → List Char → List Char
  | _, [] => []
  | inRun, c :: rest =>
    if pyIsSpace c then
      if inRun then collapseWsGo true rest
      else ' ' :: collapseWsGo true rest
    else c :: collapseWsGo false rest

/-- Python `re.sub(r'\s+', ' ', s)`: collapse every whitespace run to a
single space. -/
def collapseWs (l : List Char) : List Char := collapseWsGo false l

/-- `utils.normalize_font_name`: guard on falsy input, then
`re.sub(r'^["\x27]|["\x27]$', '', s.strip())` followed by
`re.sub(r'\s+', ' ', _)`. -/
def normalize_font_name (s : String) : String :=
  if s = "" then ""
  else (collapseWs (stripQuoteEnds (pyStripL s.toList))).asString

/-- `utils.clean_css_value`: guard on falsy input, then
`re.sub(r'\s+', ' ', s.strip())` followed by
`re.sub(r'^["\x27]|["\x27]$', '', _)`. -/
def clean_css_value (s : String) : String :=
  if s = "" then ""
  else (stripQuoteEnds (collapseWs (pyStripL s.toList))).asString

/-- Python `str.split(sep)` for a single-character separator (always
returns at least one piece; empty pieces are kept). -/
def splitChar (sep : Char) : List Char → List (List Char)
  | [] => [[]]
  | c :: rest =>
    if c = sep then [] :: splitChar sep rest
    else
      match splitChar sep rest with
      | t :: ts => (c :: t) :: ts
      | [] => [[c]]

/-- Python `str.split(sep, 1)` for a single-character separator: `none`
when the separator does not occur (the `':' in declaration` test), else
the pieces before and after its first occurrence. -/
def splitFirst (sep : Char) : List Char → Option (List Char × List Char)
  | [] => none
  | c :: rest =>
    if c = sep then some ([], rest)
    else (splitFirst sep rest).map (fun p => (c :: p.1, p.2))

/-- Lookup in an insertion-ordered association list modelling a Python
`dict` (first matching key; keys are unique by construction). -/
def lookupD (props : List (String × String)) (k : String) : Option String :=
  (props.find? (fun p => p.1 == k)).map Prod.snd

/-- Python `dict` assignment `d[k] = v`: overwrite in place if the key is
present, else append. -/
def insertD (props : List (String × String)) (k v : String) : List (String × String) :=
  match props with
  | [] => [(k, v)]
  | (k₁, v₁) :: rest => if k₁ == k then (k₁, v) :: rest else (k₁, v₁) :: insertD rest k v

/-- Python `dict.update(other)`: assign every pair of `other` in order. -/
def updateD (d other : List (String × String)) : List (String × String) :=
  other.foldl (fun acc kv => insertD acc kv.1 kv.2) d

/-- `CSSParser._extract_css_properties`: split the declaration block body on
`;`; for each segment that contains a `:`, split once at the first `:`,
lower-case and strip the key, clean the value, and store the pair when both
are non-empty (a Python `dict` assignment, so a later duplicate key
overwrites an earlier one). -/
def extract_css_properties (block : String) : List (String × String) :=
  (splitChar ';' block.toList).foldl
    (fun props decl =>
      match splitFirst ':' decl with
      | none => props
      | some kv =>
        if ((pyStripL kv.1).map Char.toLower).asString ≠ "" ∧
            clean_css_value kv.2.asString ≠ "" then
          insertD props ((pyStripL kv.1).map Char.toLower).asString
            (clean_css_value kv.2.asString)
        else props)
    []

/-- `utils.Font`: the dataclass of a detected font.  The `timestamp`-free
fields appear in source order; `font_face_data` is the insertion-ordered
dictionary of raw `@font-face` properties. -/
structure Font where
  name : String
  type : String
  source : Option String := none
  weights : List String := []
  styles : List String := []
  format : Option String := none
  provider : Option String := none
  selectors : List String := []
  font_face_data : List (String × String) := []
  unicode_range : Option String := none
deriving Repr, DecidableEq

instance : Inhabited Font := ⟨{ name := "", type := "" }⟩

/-- The merge identity key `(font.name, font.type, font.source)` used by
`CSSParser.merge_duplicate_fonts`. -/
def fontKey (f : Font) : String × String × Option String :=
  (f.name, f.type, f.source)

/-- Matcher for the regex suffix `["\x27]?\s*\)`: an optional quote
character, arbitrary whitespace, and a closing parenthesis.  The optional
quote is deterministic here: when the head is a quote, the alternative of
not consuming it cannot succeed because `\s*` cannot pass a quote and `)`
is not a quote. -/
def tailCloses (l : List Char) : Bool :=
  let l₁ := match l with
    | c :: rest => if isQuoteC c then rest else l
    | [] => []
  (l₁.dropWhile pyIsSpace).head? == some ')'

/-- Greedy capture of `([^"\x27]+)["\x27]?\s*\)`: `run` is the maximal
quote-free run after the opening delimiter and `after` the rest of the
fragment; the group is the longest non-empty prefix of `run` whose
remainder matches `tailCloses` (regex backtracking shrinks the greedy
`[^"\x27]+` from the right). -/
def findGroup (run after : List Char) : Nat → Option (List Char)
  | 0 => none
  | k + 1 =>
    if tailCloses (run.drop (k + 1) ++ after) then some (run.take (k + 1))
    else findGroup run after k

/-- Match `["\x27]?([^"\x27]+)["\x27]?\s*\)` at the start of `l`, where `l`
is the text left after the inner `\s*` consumed some prefix.  The optional
quote is deterministic (consuming it is forced when the head is a quote,
since `[^"\x27]+` cannot start at a quote); the greedy group backtracks via
`findGroup`. -/
def matchAfterWs (l : List Char) : Option (List Char) :=
  let l₄ := match l with
    | c :: rest => if isQuoteC c then rest else l
    | [] => []
  let run := l₄.takeWhile (fun c => !isQuoteC c)
  findGroup run (l₄.drop run.length) run.length

/-- Backtracking loop of the greedy inner `\s*` that follows the opening
parenthesis: try consuming `k` whitespace characters (longest first, as
the regex engine does), and on failure give characters back one at a time
down to zero — whitespace given back is then available to the greedy
`[^"\x27]+` capture group, so `url( )` captures the single space. -/
def matchFromWs (l : List Char) : Nat → Option (List Char)
  | 0 => matchAfterWs l
  | k + 1 =>
    match matchAfterWs (l.drop (k + 1)) with
    | some g => some g
    | none => matchFromWs l k

/-- Attempt to match `\s*\(\s*["\x27]?([^"\x27]+)["\x27]?\s*\)` at the
start of `l` (the text following the literal function name), returning the
captured group.  The first `\s*` is deterministic (the next token is the
literal `(`, which is not whitespace); the second `\s*` backtracks through
`matchFromWs` from its maximal run down to zero. -/
def matchFuncTail (l : List Char) : Option (List Char) :=
  match l.dropWhile pyIsSpace with
  | '(' :: l₂ => matchFromWs l₂ (l₂.takeWhile pyIsSpace).length
  | _ => none

/-- Python `re.search` for the pattern `lit\s*\(\s*["\x27]?([^"\x27]+)["\x27]?\s*\)`
(with `lit` the literal `url` or `format`): try every start position from
the left, returning the first successful capture. -/
def searchFunc (lit : List Char) : List Char → Option (List Char)
  | [] => none
  | c :: rest =>
    if lit.isPrefixOf (c :: rest) then
      match matchFuncTail ((c :: rest).drop lit.length) with
      | some g => some g
      | none => searchFunc lit rest
    else searchFunc lit rest

/-- The comma split of `utils.parse_font_face_src`: a comma separates
fragments only at parenthesis depth zero; `(` and `)` adjust the depth
(an `Int`, since the Python counter may go negative) and every character
except a separating comma is appended to the current fragment.  Fragments
are stripped; the mid-scan append is unconditional, the final one only for
a non-blank remainder. -/
def srcParts : List Char → List (List Char) → List Char → Int → List (List Char)
  | [], parts, current, _ =>
    if (pyStripL current).isEmpty then parts else parts ++ [pyStripL current]
  | c :: rest, parts, current, depth =>
    if c = '(' then srcParts rest parts (current ++ [c]) (depth + 1)
    else if c = ')' then srcParts rest parts (current ++ [c]) (depth - 1)
    else if c = ',' ∧ depth = 0 then srcParts rest (parts ++ [pyStripL current]) [] depth
    else srcParts rest parts (current ++ [c]) depth

/-- The font file extensions of `utils.is_web_font_url`. -/
def font_extensions : List String :=
  [".woff", ".woff2", ".ttf", ".otf", ".eot", ".svg"]

/-- Python `str.lower()` (character-wise, adequate for ASCII URLs). -/
def lowerS (s : String) : String := (s.toList.map Char.toLower).asString

/-- Python `str.endswith(suffix)`. -/
def endsWithS (s suffix : String) : Bool := suffix.toList.isSuffixOf s.toList

/-- `utils.is_web_font_url`: the path component of the lower-cased URL ends
with a known font extension.  `urlPath` is the oracle for
`urllib.parse.urlparse(url).path`. -/
def is_web_font_url (urlPath : String → String) (url : String) : Bool :=
  let path := urlPath (lowerS url)
  font_extensions.any (fun ext => endsWithS path ext)

/-- The format-from-extension inference chain of `utils.parse_font_face_src`
(applied only when no explicit `format(...)` token is present). -/
def inferFormat (urlPath : String → String) (url : String) : Option String :=
  if is_web_font_url urlPath url then
    if endsWithS url ".woff2" then some "woff2"
    else if endsWithS url ".woff" then some "woff"
    else if endsWithS url ".ttf" then some "truetype"
    else if endsWithS url ".otf" then some "opentype"
    else if endsWithS url ".eot" then some "embedded-opentype"
    else none
  else none

/-- One parsed `src` fragment: the (resolved) URL and the format token. -/
structure SrcEntry where
  url : String
  format : Option String
deriving Repr, DecidableEq

/-- `utils.parse_font_face_src`: split the `src` value on top-level commas,
and for every fragment containing a `url(...)` token emit its URL resolved
against the base (`resolve` is the oracle for `urljoin(base_url, _)`, the
identity when no base is given) together with the explicit `format(...)`
token or, failing that, the extension-inferred format. -/
def parse_font_face_src (urlPath resolve : String → String) (src_value : String) :
    List SrcEntry :=
  (srcParts src_value.toList [] [] 0).filterMap (fun part =>
    match searchFunc "url".toList part with
    | none => none
    | some u =>
      let url := resolve u.asString
      let fmt := match searchFunc "format".toList part with
        | some f => some f.asString
        | none => inferFormat urlPath url
      some { url := url, format := fmt })

/-- Python substring containment `sub in s`. -/
def containsSub (sub : List Char) : List Char → Bool
  | [] => sub.isEmpty
  | c :: rest => sub.isPrefixOf (c :: rest) || containsSub sub rest

/-- Python `sub in s` on strings. -/
def strContains (s sub : String) : Bool := containsSub sub.toList s.toList

/-- `utils.detect_font_provider`: falsy URL gives `None`; otherwise the
first matching case-insensitive substring pattern wins, defaulting to
`Custom`. -/
def detect_font_provider (url : String) : Option String :=
  if url = "" then none
  else
    let u := lowerS url
    if strContains u "fonts.googleapis.com" || strContains u "fonts.gstatic.com" then
      some "Google Fonts"
    else if strContains u "use.typekit.net" || strContains u "use.typekit.com" then
      some "Adobe Fonts"
    else if strContains u "fontawesome" then some "Font Awesome"
    else if strContains u "cdnjs.cloudflare.com" && strContains u "font" then some "CDNJS"
    else if strContains u "fonts.com" || strContains u "webtype.com" ||
        strContains u "typography.com" then some "Commercial Web Fonts"
    else some "Custom"

/-- `CSSParser._parse_single_font_face`: extract the properties of one
`@font-face` block body; discard the block when the `font-family` property
is missing (or falsy) or when `parse_font_face_src` yields no sources;
otherwise build one `web` Font from the first source, with weight and style
assigned only when the corresponding property is present. -/
def parse_single_font_face (urlPath resolve : String → String) (block : String) :
    Option Font :=
  let properties := extract_css_properties block
  match lookupD properties "font-family" with
  | none => none
  | some ff₀ =>
    if ff₀ = "" then none
    else
      let font_family := normalize_font_name ff₀
      let src_value := (lookupD properties "src").getD ""
      match parse_font_face_src urlPath resolve src_value with
      | [] => none
      | primary :: _ =>
        some
          { name := font_family
            type := "web"
            source := some primary.url
            format := primary.format
            provider := detect_font_provider primary.url
            font_face_data := properties
            weights :=
              match lookupD properties "font-weight" with
              | none => []
              | some w =>
                let wv := clean_css_value w
                if wv ≠ "" ∧ wv ≠ "normal" then [wv] else ["400"]
            styles :=
              match lookupD properties "font-style" with
              | none => []
              | some s₀ =>
                let sv := clean_css_value s₀
                if sv ≠ "" ∧ sv ≠ "normal" then [sv] else ["normal"]
            selectors := []
            unicode_range := lookupD properties "unicode-range" }

/-- The field merge of `CSSParser.merge_duplicate_fonts` applied to the
accumulator entry `g` and a later same-key font `f`: extend and
de-duplicate `weights`, `styles` and `selectors` (`list(set(..))` modelled
as order-preserving de-duplication) and overlay `font_face_data` via
`dict.update`.  The identity-key fields are untouched. -/
def mergedFont (g f : Font) : Font :=
  { g with
    weights := (g.weights ++ f.weights).dedup
    styles := (g.styles ++ f.styles).dedup
    selectors := (g.selectors ++ f.selectors).dedup
    font_face_data := updateD g.font_face_data f.font_face_data }

/-- One loop iteration of `CSSParser.merge_duplicate_fonts` on the
insertion-ordered accumulator (the `font_map` dict, keyed by `fontKey`):
merge into the existing same-key entry in place, or append. -/
def mergeStep : List Font → Font → List Font
  | [], f => [f]
  | g :: rest, f =>
    if fontKey g = fontKey f then mergedFont g f :: rest
    else g :: mergeStep rest f

/-- `CSSParser.merge_duplicate_fonts`: fold the input list through the
accumulator; the result is `list(font_map.values())`, i.e. the accumulator
in first-seen key order. -/
def merge_duplicate_fonts (fonts : List Font) : List Font :=
  fonts.foldl mergeStep []

/-- First accumulator entry with the given identity key. -/
def lookupKey (fonts : List Font) (k : String × String × Option String) : Option Font :=
  fonts.find? (fun f => decide (fontKey f = k))

/-- All values of one collection field (`weights`, `styles` or
`selectors`) contributed by the input fonts carrying a given identity key,
in input order. -/
def collectBy (sel : Font → List String) (l : List Font)
    (k : String × String × Option String) : List String :=
  (l.filter (fun f => decide (fontKey f = k))).flatMap sel

/-- Invariant of the merge fold: relative to the already-processed prefix
`L`, every accumulator entry holds exactly the set of weights, styles and
selectors contributed by the same-key fonts of `L`, and keys absent from
the accumulator do not occur in `L`. -/
def MergeAcc (L acc : List Font) : Prop :=
  ∀ k : String × String × Option String,
    (∀ g, lookupKey acc k = some g →
      g.weights.toFinset = (collectBy Font.weights L k).toFinset ∧
      g.styles.toFinset = (collectBy Font.styles L k).toFinset ∧
      g.selectors.toFinset = (collectBy Font.selectors L k).toFinset ∧
      L.filter (fun f => decide (fontKey f = k)) ≠ []) ∧
    (lookupKey acc k = none → L.filter (fun f => decide (fontKey f = k)) = [])

/-- Heap read for the object-identity model of `merge_duplicate_fonts`:
Python objects are positions in a heap list. -/
def heapGet (heap : List Font) (i : Nat) : Font := heap.getD i default

/-- Object-identity model of `CSSParser.merge_duplicate_fonts`: the input
is a list of references `ids` into `heap`, and `font_map` maps identity
keys to the reference first stored for that key.  On a duplicate key the
engine mutates the referenced Font in place (`existing_font.weights.extend`
etc.), which updates the heap cell of an input object. -/
def mergeHeapRun : List Font → List ((String × String × Option String) × Nat) →
    List Nat → List Font × List ((String × String × Option String) × Nat)
  | heap, fmap, [] => (heap, fmap)
  | heap, fmap, i :: rest =>
    let f := heapGet heap i
    let k := fontKey f
    match fmap.find? (fun p => decide (p.1 = k)) with
    | some p => mergeHeapRun (heap.set p.2 (mergedFont (heapGet heap p.2) f)) fmap rest
    | none => mergeHeapRun heap (fmap ++ [(k, i)]) rest

/-- The generic CSS family keyword set of `FontDetector._filter_fonts`. -/
def generic_families : List String :=
  ["serif", "sans-serif", "monospace", "cursive", "fantasy",
   "system-ui", "ui-serif", "ui-sans-serif", "ui-monospace"]

/-- `FontDetector._filter_fonts`: drop system fonts when `include_system`
is off, drop fonts with empty or whitespace-only names, and drop fonts
whose lower-cased name is a generic CSS family keyword. -/
def filter_fonts (include_system : Bool) (fonts : List Font) : List Font :=
  fonts.filter (fun font =>
    !(!include_system && font.type == "system") &&
    !(font.name == "" || pyStrip font.name == "") &&
    !(generic_families.any (fun g => g == lowerS font.name)))

/-- `utils.ScrapeResults` restricted to the fields the claims touch (the
wall-clock `timestamp` and the derived `statistics` mapping are omitted). -/
structure ScrapeResults where
  url : String
  fonts : List Font := []
  css_files : List String := []
  errors : List String := []
deriving Repr, DecidableEq

/-- `ScrapeResults.add_font`: append unless an element equal in all fields
(dataclass `__eq__`) is already present. -/
def add_font (r : ScrapeResults) (f : Font) : ScrapeResults :=
  if f ∈ r.fonts then r else { r with fonts := r.fonts ++ [f] }

/-- The character scan of `CSSParser._parse_font_family_value`: split on
commas outside quotes, tracking the active quote character; quote
characters are kept in the token; tokens are stripped, and blank tokens
are dropped at a split point and at the end. -/
def pffvScan : List Char → List (List Char) → List Char → Bool → Option Char →
    List (List Char)
  | [], families, current, _, _ =>
    if (pyStripL current).isEmpty then families else families ++ [pyStripL current]
  | c :: rest, families, current, inQ, qc =>
    if isQuoteC c ∧ inQ = false then
      pffvScan rest families (current ++ [c]) true (some c)
    else if some c = qc ∧ inQ = true then
      pffvScan rest families (current ++ [c]) false none
    else if c = ',' ∧ inQ = false then
      if (pyStripL current).isEmpty then pffvScan rest families [] inQ qc
      else pffvScan rest (families ++ [pyStripL current]) [] inQ qc
    else pffvScan rest families (current ++ [c]) inQ qc

/-- `CSSParser._parse_font_family_value`: guard on falsy input, run the
quote-aware comma scan, then normalize each non-blank token. -/
def parse_font_family_value (v : String) : List String :=
  if v = "" then []
  else
    ((pffvScan v.toList [] [] false none).filter
        (fun f => !(pyStripL f).isEmpty)).map
      (fun f => normalize_font_name f.asString)

/-- The property contributions of a declaration-block body, in declaration
order: the colon-bearing segments whose stripped, lower-cased key and
cleaned value are both non-empty, as (key, value) pairs.  Segments without
a colon, and segments whose key or cleaned value is empty, contribute
nothing. -/
def propContributions (body : String) : List (String × String) :=
  (splitChar ';' body.toList).filterMap (fun decl =>
    match splitFirst ':' decl with
    | none => none
    | some kv =>
      if ((pyStripL kv.1).map Char.toLower).asString ≠ "" ∧
          clean_css_value kv.2.asString ≠ "" then
        some (((pyStripL kv.1).map Char.toLower).asString, clean_css_value kv.2.asString)
      else none)

/-- The value of the last contribution for a key, if any. -/
def lastVal (kvs : List (String × String)) (k : String) : Option String :=
  ((kvs.filter (fun kv => kv.1 == k)).reverse.head?).map Prod.snd

/-- Two fonts sharing the identity key `(A, web, u)` but differing in
`weights`: used to exercise full-field versus key-based de-duplication. -/
def dupFontA : Font := { name := "A", type := "web", source := some "u", weights := ["400"] }

/-- See `dupFontA`. -/
def dupFontB : Font := { name := "A", type := "web", source := some "u", weights := ["700"] }

/-- A font used to exercise merge order-independence. -/
def permFontA : Font :=
  { name := "M", type := "web", source := some "m", weights := ["400"],
    selectors := [".a"] }

/-- A same-key partner of `permFontA` with different weights. -/
def permFontB : Font :=
  { name := "M", type := "web", source := some "m", weights := ["700"],
    selectors := [".b"] }

/-- A font stored in the mutation-model heap. -/
def mutFontA : Font :=
  { name := "X", type := "web", source := some "x", weights := ["400"] }

/-- A same-key partner of `mutFontA` with different weights. -/
def mutFontB : Font :=
  { name := "X", type := "web", source := some "x", weights := ["700"] }

/-- A heap font whose identity key occurs only once. -/
def mutFontC : Font :=
  { name := "Y", type := "custom", weights := ["300"] }

/-- A system font used to exercise the filter step. -/
def sysFontC4 : Font := { name := "Arial", type := "system" }

/-- A custom font that survives the filter step. -/
def goodFontC4 : Font := { name := "Good", type := "custom" }

/-- An `@font-face` block body with a well-formed single-source `src`. -/
def webBlockC1 : String := "font-family: Test; src: url('a.woff2') format('woff2')"

/-- An `@font-face` block body carrying both `font-weight` and
`font-style`. -/
def weightBlockC5 : String :=
  "font-family:T;src:url('a.woff2');font-weight:700;font-style:italic"

/-- The Font produced from `weightBlockC5` (identity oracles). -/
def weightFontC5 : Font :=
  { name := "T", type := "web", source := some "a.woff2",
    weights := ["700"], styles := ["italic"], format := some "woff2",
    provider := some "Custom", selectors := [],
    font_face_data := [("font-family", "T"), ("src", "url('a.woff2')"),
      ("font-weight", "700"), ("font-style", "italic")],
    unicode_range := none }

example : merge_duplicate_fonts
    [{ name := "Arial", type := "system", weights := ["400"], selectors := [".body"] },
     { name := "Arial", type := "system", weights := ["700"], selectors := [".header"] },
     { name := "Roboto", type := "web", weights := ["300"], selectors := [".nav"] }] =
    [{ name := "Arial", type := "system", weights := ["400", "700"],
       selectors := [".body", ".header"] },
     { name := "Roboto", type := "web", weights := ["300"], selectors := [".nav"] }] := by
  decide

example : parse_font_family_value "'Times New Roman', Times, serif" =
    ["Times New Roman", "Times", "serif"] := by decide

example : parse_font_family_value "\"Font, With, Commas\", Arial" =
    ["Font, With, Commas", "Arial"] := by decide

example : normalize_font_name "  \"Roboto\"  " = "Roboto" := by decide
example : normalize_font_name "\"Roboto'" = "Roboto" := by decide
example : clean_css_value " 'a'  b " = "a' b" := by decide
example : extract_css_properties "font-family: 'Roboto'; font-weight: 700" =
    [("font-family", "Roboto"), ("font-weight", "700")] := by decide
example : extract_css_properties "a: x;a: \"\"" = [("a", "x")] := by decide
example : searchFunc "url".toList "url('a.woff2') format('woff2')".toList =
    some "a.woff2".toList := by decide
example : searchFunc "url".toList "url(a.woff2) format(woff2)".toList =
    some "a.woff2) format(woff2".toList := by decide
example : searchFunc "url".toList "url( 'a.woff2' )".toList = some "a.woff2".toList := by
  decide
example : searchFunc "url".toList "url('')".toList = none := by decide
example : searchFunc "url".toList "url()".toList = none := by decide
example : searchFunc "url".toList "url( )".toList = some " ".toList := by decide
example : searchFunc "url".toList "url(  )".toList = some " ".toList := by decide
example : searchFunc "url".toList "url( ')".toList = some " ".toList := by decide
example : searchFunc "url".toList "url( a )".toList = some "a ".toList := by decide
example : searchFunc "url".toList "url( ') url('real.woff')".toList =
    some " ".toList := by decide
example : parse_font_face_src (fun s => s) (fun s => s) "url( ), url('b.woff')" =
    [⟨" ", none⟩, ⟨"b.woff", some "woff"⟩] := by decide
example : parse_single_font_face (fun s => s) (fun s => s)
    "font-family: X; src: url( )" ≠ none := by decide
example : parse_font_face_src (fun s => s) (fun s => s)
    "local(Foo), url('b.woff') format('woff'), url('c.ttf')" =
    [⟨"b.woff", some "woff"⟩, ⟨"c.ttf", some "truetype"⟩] := by decide
example : detect_font_provider "https://fonts.gstatic.com/f.woff2" = some "Google Fonts" := by
  decide
example : parse_single_font_face (fun s => s) (fun s => s)
    "font-family: 'Test'; src: url('t.woff2') format('woff2'); font-weight: 700" =
    some { name := "Test", type := "web", source := some "t.woff2",
           weights := ["700"], styles := [], format := some "woff2",
           provider := some "Custom", selectors := [],
           font_face_data := [("font-family", "Test"), ("src", "url('t.woff2') format('woff2')"),
             ("font-weight", "700")],
           unicode_range := none } := by decide

/-! ## Helper lemmas -/

theorem toListAppend (a b : String) : (a ++ b).toList = a.toList ++ b.toList := by
  cases a
  cases b
  rfl

theorem toFinsetDedup {α : Type} [DecidableEq α] (l : List α) :
    l.dedup.toFinset = l.toFinset := by
  ext a
  simp [List.mem_dedup]

theorem toFinsetPerm {α : Type} [DecidableEq α] {l l' : List α} (h : l.Perm l') :
    l.toFinset = l'.toFinset := by
  ext a
  simp [h.mem_iff]

theorem pyStripL_cons_space (l : List Char) : pyStripL (' ' :: l) = pyStripL l := by
  simp [pyStripL, List.dropWhile_cons, show pyIsSpace ' ' = true from by decide]

theorem pyStripL_append_space (l : List Char) : pyStripL (l ++ [' ']) = pyStripL l := by
  have hsp : pyIsSpace ' ' = true := by decide
  simp only [pyStripL, List.dropWhile_append]
  by_cases h : (l.dropWhile pyIsSpace).isEmpty
  · have h0 : l.dropWhile pyIsSpace = [] := List.isEmpty_iff.mp h
    simp [h0, hsp, List.dropWhile]
  · rw [if_neg (by simpa using h)]
    rw [List.reverse_append]
    simp only [List.reverse_cons, List.reverse_nil, List.nil_append, List.singleton_append,
      List.dropWhile_cons, hsp, if_true]

theorem pyStripL_all_space {l : List Char} (h : ∀ c ∈ l, pyIsSpace c) :
    pyStripL l = [] := by
  have h1 : l.dropWhile pyIsSpace = [] := List.dropWhile_eq_nil_iff.mpr h
  simp [pyStripL, h1]

theorem pyStripL_no_space_ends {a b : Char} (m : List Char)
    (ha : pyIsSpace a = false) (hb : pyIsSpace b = false) :
    pyStripL (a :: (m ++ [b])) = a :: (m ++ [b]) := by
  unfold pyStripL
  rw [show (a :: (m ++ [b])).dropWhile pyIsSpace = a :: (m ++ [b]) by
    simp [List.dropWhile_cons, ha]]
  rw [show (a :: (m ++ [b])).reverse = b :: (m.reverse ++ [a]) by simp]
  rw [show (b :: (m.reverse ++ [a])).dropWhile pyIsSpace = b :: (m.reverse ++ [a]) by
    simp [List.dropWhile_cons, hb]]
  simp

theorem collapseWsGo_no_space {l : List Char} (h : ∀ c ∈ l, pyIsSpace c = false) :
    collapseWsGo false l = l := by
  induction l with
  | nil => rfl
  | cons c rest ih =>
    have hc := h c (List.mem_cons_self c rest)
    simp only [collapseWsGo, hc, Bool.false_eq_true, if_false]
    rw [ih (fun x hx => h x (List.mem_cons_of_mem c hx))]

/-! ## Claim C8 -/

/-- Claim C8: the font-family value splitter splits on commas only outside
quoted substrings and drops empty entries; splitting
`'Times New Roman', Times, serif` yields exactly
`["Times New Roman", "Times", "serif"]`, and splitting
`"Font, With, Commas", Arial` yields exactly
`["Font, With, Commas", "Arial"]`. -/
theorem parse_font_family_value_split_examples :
    parse_font_family_value "'Times New Roman', Times, serif" =
      ["Times New Roman", "Times", "serif"] ∧
    parse_font_family_value "\"Font, With, Commas\", Arial" =
      ["Font, With, Commas", "Arial"] := by
  constructor <;> decide

/-! ## Claim C7 -/

/-- Claim C7 counterexample: `normalize_font_name` strips the quote
characters of `"Roboto'` even though the two ends hold different quote
characters, i.e. no matching pair is present, contradicting the claim that
a quote is stripped only when a matching pair is present (which would
leave the input unchanged here). -/
theorem normalize_font_name_unmatched_quote_cex :
    normalize_font_name "\"Roboto'" = "Roboto" ∧ ("Roboto" : String) ≠ "\"Roboto'" := by
  constructor <;> decide

/-- Claim C7 (amended): `normalize_font_name` trims whitespace, strips one
leading quote character if present and one trailing quote character if
present — independently, without requiring a matching pair — collapses
internal whitespace runs to a single space, and returns the empty string
on empty or whitespace-only input; `normalize_font_name('  "Roboto"  ')`
is `Roboto`. -/
theorem normalize_font_name_spec :
    (∀ s : String, (∀ c ∈ s.toList, pyIsSpace c) → normalize_font_name s = "") ∧
    (∀ s : String, normalize_font_name (" " ++ s) = normalize_font_name s ∧
      normalize_font_name (s ++ " ") = normalize_font_name s) ∧
    (∀ body : String, body ≠ "" → (∀ c ∈ body.toList, pyIsSpace c = false) →
      normalize_font_name ("\"" ++ body ++ "'") = body) ∧
    normalize_font_name "  \"Roboto\"  " = "Roboto" ∧
    normalize_font_name "Foo   Bar" = "Foo Bar" := by
  refine ⟨?_, ?_, ?_, by decide, by decide⟩
  · intro s hs
    unfold normalize_font_name
    by_cases h : s = ""
    · simp [h]
    · rw [if_neg h, pyStripL_all_space hs]
      decide
  · intro s
    have hne : ∀ t : String, t.toList ≠ [] → t ≠ "" := by
      intro t htl he
      apply htl
      rw [he]
      rfl
    constructor
    · have htl : (" " ++ s).toList = ' ' :: s.toList := by
        rw [toListAppend]
        rfl
      by_cases h : s = ""
      · subst h
        decide
      · unfold normalize_font_name
        rw [if_neg h, if_neg (hne _ (by simp [htl])), htl, pyStripL_cons_space]
    · have htl : (s ++ " ").toList = s.toList ++ [' '] := by
        rw [toListAppend]
        rfl
      by_cases h : s = ""
      · subst h
        decide
      · unfold normalize_font_name
        rw [if_neg h, if_neg (hne _ (by simp [htl])), htl, pyStripL_append_space]
  · intro body hb hns
    have htl : ("\"" ++ body ++ "'").toList = '"' :: (body.toList ++ ['\'']) := by
      rw [toListAppend, toListAppend]
      simp
    have hguard : ("\"" ++ body ++ "'") ≠ "" := by
      intro he
      have : ("\"" ++ body ++ "'").toList = [] := by rw [he]; rfl
      rw [htl] at this
      exact absurd this (by simp)
    unfold normalize_font_name
    rw [if_neg hguard, htl,
      pyStripL_no_space_ends (body.toList) (by decide) (by decide)]
    unfold stripQuoteEnds
    rw [show dropLeadQuote ('"' :: (body.toList ++ ['\''])) = body.toList ++ ['\''] by
      simp [dropLeadQuote, isQuoteC]]
    unfold dropTrailQuote
    rw [show (body.toList ++ ['\'']).reverse = '\'' :: body.toList.reverse by simp]
    rw [show dropLeadQuote ('\'' :: body.toList.reverse) = body.toList.reverse by
      simp [dropLeadQuote, isQuoteC]]
    rw [List.reverse_reverse]
    unfold collapseWs
    rw [collapseWsGo_no_space hns]
    exact String.asString_toList body

/-- Claim C7 witness: the amended normalize specification evaluated on a
whitespace-only input and on a body wrapped in mismatched quotes. -/
theorem normalize_font_name_spec_witness :
    normalize_font_name "   " = "" ∧ normalize_font_name "\"Body'" = "Body" :=
  ⟨normalize_font_name_spec.1 "   " (by decide),
   normalize_font_name_spec.2.2.1 "Body" (by decide) (by decide)⟩

/-! ## Claim C10 -/

/-- Claim C10: `ScrapeResults.add_font` de-duplicates by full field
equality, not by the `(name, kind, source)` identity key: the font list is
unchanged exactly when an all-fields-equal element is already present, the
added font is always present afterwards, and two fonts sharing an identity
key but differing in `weights` can both be present. -/
theorem add_font_full_equality_dedup :
    (∀ (r : ScrapeResults) (f : Font), (add_font r f).fonts = r.fonts ↔ f ∈ r.fonts) ∧
    (∀ (r : ScrapeResults) (f : Font), f ∈ (add_font r f).fonts) ∧
    fontKey dupFontA = fontKey dupFontB ∧ dupFontA ≠ dupFontB ∧
    (add_font (add_font { url := "https://x.test" } dupFontA) dupFontB).fonts =
      [dupFontA, dupFontB] := by
  refine ⟨?_, ?_, by decide, by decide, by decide⟩
  · intro r f
    unfold add_font
    by_cases h : f ∈ r.fonts
    · simp [h]
    · simp only [h, if_false, if_neg h]
      constructor
      · intro hEq
        have hlen := congrArg List.length hEq
        simp at hlen
      · intro hmem
        exact hmem.elim
  · intro r f
    unfold add_font
    by_cases h : f ∈ r.fonts <;> simp [h]

/-! ## Claim C9 -/

theorem lookupD_cons (p : String × String) (rest : List (String × String)) (k : String) :
    lookupD (p :: rest) k = if p.1 == k then some p.2 else lookupD rest k := by
  cases h : p.1 == k
  · simp [lookupD, List.find?, h]
  · simp [lookupD, List.find?, h]

theorem lookupD_insertD_self (acc : List (String × String)) (k v : String) :
    lookupD (insertD acc k v) k = some v := by
  induction acc with
  | nil => simp [insertD, lookupD, List.find?]
  | cons p rest ih =>
    obtain ⟨k₁, v₁⟩ := p
    by_cases h : k₁ = k
    · simp [insertD, h, lookupD_cons]
    · simp only [insertD, beq_iff_eq, h, if_false]
      rw [lookupD_cons]
      simp only [beq_iff_eq, h, if_false]
      exact ih

theorem lookupD_insertD_ne (acc : List (String × String)) (k v k' : String) (h : k ≠ k') :
    lookupD (insertD acc k v) k' = lookupD acc k' := by
  have hb : (k == k') = false := by simp [h]
  induction acc with
  | nil => simp [insertD, lookupD, List.find?, hb]
  | cons p rest ih =>
    obtain ⟨k₁, v₁⟩ := p
    by_cases h₁ : k₁ = k
    · subst h₁
      simp only [insertD, beq_self_eq_true, if_true]
      rw [lookupD_cons, lookupD_cons]
      simp only [hb, Bool.false_eq_true, if_false]
    · simp only [insertD, beq_iff_eq, h₁, if_false]
      rw [lookupD_cons, lookupD_cons]
      by_cases h₂ : k₁ = k'
      · simp [h₂]
      · simp only [beq_iff_eq, h₂, if_false]
        exact ih

theorem lookupD_foldl_insertD (kvs : List (String × String))
    (acc : List (String × String)) (k : String) :
    lookupD (kvs.foldl (fun a kv => insertD a kv.1 kv.2) acc) k =
      match (kvs.filter (fun kv => kv.1 == k)).reverse.head? with
      | some kv => some kv.2
      | none => lookupD acc k := by
  induction kvs generalizing acc with
  | nil => simp
  | cons kv t ih =>
    rw [List.foldl_cons, ih]
    by_cases hk : kv.1 = k
    · rw [List.filter_cons_of_pos (by simp [hk])]
      rw [List.reverse_cons, List.head?_append]
      cases h : (t.filter (fun q => q.1 == k)).reverse.head? with
      | none =>
        simp only [Option.or, List.head?_cons]
        rw [← hk, lookupD_insertD_self]
      | some x => simp [Option.or]
    · rw [List.filter_cons_of_neg (by simp [hk])]
      cases h : (t.filter (fun q => q.1 == k)).reverse.head? with
      | none => rw [lookupD_insertD_ne _ _ _ _ hk]
      | some x => rfl

theorem extract_fold_fusion (decls : List (List Char)) (acc : List (String × String)) :
    decls.foldl
      (fun props decl =>
        match splitFirst ':' decl with
        | none => props
        | some kv =>
          if ((pyStripL kv.1).map Char.toLower).asString ≠ "" ∧
              clean_css_value kv.2.asString ≠ "" then
            insertD props ((pyStripL kv.1).map Char.toLower).asString
              (clean_css_value kv.2.asString)
          else props) acc =
    (decls.filterMap (fun decl =>
        match splitFirst ':' decl with
        | none => none
        | some kv =>
          if ((pyStripL kv.1).map Char.toLower).asString ≠ "" ∧
              clean_css_value kv.2.asString ≠ "" then
            some (((pyStripL kv.1).map Char.toLower).asString,
              clean_css_value kv.2.asString)
          else none)).foldl
      (fun a kv => insertD a kv.1 kv.2) acc := by
  induction decls generalizing acc with
  | nil => rfl
  | cons d t ih =>
    rw [List.foldl_cons, List.filterMap_cons]
    cases hd : splitFirst ':' d with
    | none =>
      simp only [hd]
      exact ih _
    | some kv =>
      simp only [hd]
      by_cases hc : ((pyStripL kv.1).map Char.toLower).asString ≠ "" ∧
          clean_css_value kv.2.asString ≠ ""
      · rw [if_pos hc, if_pos hc, List.foldl_cons]
        exact ih _
      · rw [if_neg hc, if_neg hc]
        exact ih _

/-- Claim C9 counterexample: in the body `a: x;a: ""` the property name `a`
appears in two colon segments; the cleaned value of the last such segment
is empty, and the extractor keeps the earlier value `x` instead of the
claimed cleaned value of the last segment. -/
theorem extract_css_properties_empty_value_cex :
    lookupD (extract_css_properties "a: x;a: \"\"") "a" = some "x" ∧
    clean_css_value " \"\"" = "" ∧ ("x" : String) ≠ "" := by
  refine ⟨by decide, by decide, by decide⟩

/-- Claim C9 (amended): segments without a colon are silently skipped and
never cause failure; among the colon segments whose stripped lower-cased
key and cleaned value are both non-empty (the contributions), the mapping
holds the value of the last contribution per key; colon segments with an
empty key or an empty cleaned value contribute nothing and do not
overwrite. -/
theorem extract_css_properties_last_wins (body : String) (k : String) :
    lookupD (extract_css_properties body) k = lastVal (propContributions body) k := by
  have h1 : extract_css_properties body =
      (propContributions body).foldl (fun a kv => insertD a kv.1 kv.2) [] := by
    unfold extract_css_properties propContributions
    exact extract_fold_fusion _ _
  rw [h1, lookupD_foldl_insertD]
  unfold lastVal
  cases h : ((propContributions body).filter (fun kv => kv.1 == k)).reverse.head? with
  | none => simp [lookupD]
  | some x => simp

/-! ## Claim C3 -/

/-- Claim C3: an `@font-face` block that lacks a `font-family` property, or
whose `src` value yields no `url(...)` fragment, produces zero Fonts: the
block parser returns nothing, totally (no exception, no error surfaced). -/
theorem parse_single_font_face_discard (urlPath resolve : String → String) (block : String)
    (h : lookupD (extract_css_properties block) "font-family" = none ∨
      parse_font_face_src urlPath resolve
        ((lookupD (extract_css_properties block) "src").getD "") = []) :
    parse_single_font_face urlPath resolve block = none := by
  simp only [parse_single_font_face]
  rcases h with h | h
  · rw [h]
  · simp only [h]
    cases hff : lookupD (extract_css_properties block) "font-family" with
    | none => rfl
    | some ff => by_cases hff0 : ff = "" <;> simp [hff0]

/-- Claim C3 witness: a block with a `src` but no `font-family` is
discarded. -/
theorem parse_single_font_face_discard_witness :
    parse_single_font_face (fun s => s) (fun s => s) "src: url(a.woff2)" = none :=
  parse_single_font_face_discard (fun s => s) (fun s => s) "src: url(a.woff2)"
    (Or.inl (by decide))

/-! ## Claim C4 -/

/-- Claim C4: every Font in the output of the filter step satisfies: it is
not a `system` font when `include_system` is false, its name is neither
empty nor whitespace-only, and its lower-cased name is not a generic CSS
family keyword — the last regardless of `include_system`. -/
theorem filter_fonts_output_spec (inc : Bool) (fonts : List Font) (f : Font)
    (h : f ∈ filter_fonts inc fonts) :
    (inc = false → f.type ≠ "system") ∧ f.name ≠ "" ∧ pyStrip f.name ≠ "" ∧
    lowerS f.name ∉ generic_families := by
  rw [filter_fonts, List.mem_filter] at h
  obtain ⟨-, hp⟩ := h
  simp only [Bool.and_eq_true, Bool.not_eq_true', Bool.or_eq_true, Bool.and_eq_false_iff,
    Bool.or_eq_false_iff, beq_eq_false_iff_ne, Bool.not_eq_true, List.any_eq_false,
    beq_iff_eq] at hp
  obtain ⟨⟨h₁, h₂₃⟩, h₄⟩ := hp
  refine ⟨?_, h₂₃.1, h₂₃.2, ?_⟩
  · intro hinc hsys
    rcases h₁ with h₁ | h₁
    · rw [hinc] at h₁
      exact absurd h₁ (by decide)
    · exact h₁ hsys
  · intro hmem
    exact h₄ (lowerS f.name) hmem rfl

/-- Claim C4 witness: with `include_system = false`, the surviving custom
font satisfies all three filter guarantees. -/
theorem filter_fonts_output_spec_witness :
    (false = false → goodFontC4.type ≠ "system") ∧ goodFontC4.name ≠ "" ∧
    pyStrip goodFontC4.name ≠ "" ∧ lowerS goodFontC4.name ∉ generic_families :=
  filter_fonts_output_spec false [sysFontC4, goodFontC4] goodFontC4 (by decide)

/-! ## Claim C5 -/

/-- Claim C5 counterexample: a block whose `font-weight` and `font-style`
properties are absent yields a Font with `weights = []` and `styles = []`,
not the claimed defaults `["400"]` and `["normal"]`. -/
theorem fontface_weight_default_cex :
    (parse_single_font_face (fun s => s) (fun s => s)
        "font-family: Test; src: url('a.woff2')").map Font.weights = some [] ∧
    (parse_single_font_face (fun s => s) (fun s => s)
        "font-family: Test; src: url('a.woff2')").map Font.styles = some [] ∧
    (([] : List String) ≠ ["400"]) ∧ (([] : List String) ≠ ["normal"]) := by
  refine ⟨by decide, by decide, by decide, by decide⟩

/-- Claim C5 (amended): for every `@font-face` block that yields a Font,
when the `font-weight` property is present the weights are the single
cleaned value if it is non-empty and not `normal` and `["400"]` otherwise,
but when `font-weight` is absent the weights are `[]` (no default is
applied); styles behave the same with `["normal"]` for a present
empty-or-`normal` value and `[]` when absent. -/
theorem fontface_weight_style_assignment (urlPath resolve : String → String)
    (block : String) (f : Font)
    (h : parse_single_font_face urlPath resolve block = some f) :
    (lookupD (extract_css_properties block) "font-weight" = none → f.weights = []) ∧
    (∀ w, lookupD (extract_css_properties block) "font-weight" = some w →
      f.weights = if clean_css_value w ≠ "" ∧ clean_css_value w ≠ "normal"
        then [clean_css_value w] else ["400"]) ∧
    (lookupD (extract_css_properties block) "font-style" = none → f.styles = []) ∧
    (∀ s, lookupD (extract_css_properties block) "font-style" = some s →
      f.styles = if clean_css_value s ≠ "" ∧ clean_css_value s ≠ "normal"
        then [clean_css_value s] else ["normal"]) := by
  simp only [parse_single_font_face] at h
  split at h
  · exact Option.noConfusion h
  · split at h
    · exact Option.noConfusion h
    · split at h
      · exact Option.noConfusion h
      · injection h with h
        subst h
        refine ⟨?_, ?_, ?_, ?_⟩
        · intro hw
          simp only [hw]
        · intro w hw
          simp only [hw]
        · intro hs
          simp only [hs]
        · intro s hs
          simp only [hs]

/-- Claim C5 witness: the amended weight/style assignment evaluated on a
block with `font-weight: 700` and `font-style: italic`. -/
theorem fontface_weight_style_assignment_witness :
    (lookupD (extract_css_properties weightBlockC5) "font-weight" = none →
      weightFontC5.weights = []) ∧
    (∀ w, lookupD (extract_css_properties weightBlockC5) "font-weight" = some w →
      weightFontC5.weights = if clean_css_value w ≠ "" ∧ clean_css_value w ≠ "normal"
        then [clean_css_value w] else ["400"]) ∧
    (lookupD (extract_css_properties weightBlockC5) "font-style" = none →
      weightFontC5.styles = []) ∧
    (∀ s, lookupD (extract_css_properties weightBlockC5) "font-style" = some s →
      weightFontC5.styles = if clean_css_value s ≠ "" ∧ clean_css_value s ≠ "normal"
        then [clean_css_value s] else ["normal"]) :=
  fontface_weight_style_assignment (fun s => s) (fun s => s) weightBlockC5 weightFontC5
    (by decide)

/-! ## Claim C1 -/

theorem filterMap_append_first {α β : Type} (g : α → Option β) (p₁ : List α) (part : α)
    (p₂ : List α) (e : β) (h₁ : ∀ q ∈ p₁, g q = none) (h₂ : g part = some e) :
    (p₁ ++ part :: p₂).filterMap g = e :: p₂.filterMap g := by
  induction p₁ with
  | nil => simp [List.filterMap_cons, h₂]
  | cons a t ih =>
    rw [List.cons_append, List.filterMap_cons, h₁ a (List.mem_cons_self a t)]
    exact ih (fun q hq => h₁ q (List.mem_cons_of_mem a hq))

/-- Claim C1: for every `@font-face` block body with a non-empty
`font-family` property and at least one `url(...)`-bearing fragment in its
`src` value, the block parser yields exactly one Font, with `type = web`,
`source` the URL captured from the first `url(...)`-bearing fragment
resolved against the base (`resolve`), and `format` the fragment's
`format(...)` token or, when absent, the format inferred from the resolved
URL's file extension. -/
theorem fontface_primary_source_spec (urlPath resolve : String → String) (block : String)
    (ff : String) (p₁ p₂ : List (List Char)) (part u : List Char)
    (hff : lookupD (extract_css_properties block) "font-family" = some ff)
    (hne : ff ≠ "")
    (hsplit : srcParts ((lookupD (extract_css_properties block) "src").getD "").toList
      [] [] 0 = p₁ ++ part :: p₂)
    (hskip : ∀ q ∈ p₁, searchFunc "url".toList q = none)
    (hu : searchFunc "url".toList part = some u) :
    ∃ font, parse_single_font_face urlPath resolve block = some font ∧
      font.type = "web" ∧ font.source = some (resolve u.asString) ∧
      font.format = (match searchFunc "format".toList part with
        | some g => some g.asString
        | none => inferFormat urlPath (resolve u.asString)) := by
  have hsrc : ∃ tail, parse_font_face_src urlPath resolve
      ((lookupD (extract_css_properties block) "src").getD "") =
      { url := resolve u.asString,
        format := match searchFunc "format".toList part with
          | some g => some g.asString
          | none => inferFormat urlPath (resolve u.asString) } :: tail := by
    unfold parse_font_face_src
    rw [hsplit]
    refine ⟨_, filterMap_append_first _ _ _ _ _ ?_ ?_⟩
    · intro q hq
      rw [hskip q hq]
    · simp only [hu]
  obtain ⟨tail, hsrc⟩ := hsrc
  simp only [parse_single_font_face, hff, if_neg hne, hsrc]
  exact ⟨_, rfl, rfl, rfl, rfl⟩

/-- Claim C1 witness: the primary-source specification evaluated on a
concrete block with base `https://x.test/`. -/
theorem fontface_primary_source_spec_witness :
    ∃ font, parse_single_font_face (fun s => s)
        (fun s => String.append "https://x.test/" s) webBlockC1 = some font ∧
      font.type = "web" ∧ font.source = some "https://x.test/a.woff2" ∧
      font.format = some "woff2" :=
  fontface_primary_source_spec (fun s => s) (fun s => String.append "https://x.test/" s)
    webBlockC1 "Test" [] [] ("url('a.woff2') format('woff2')".toList) ("a.woff2".toList)
    (by decide) (by decide) (by decide) (by simp) (by decide)

/-! ## Claim C2 -/

theorem fontKey_mergedFont (g f : Font) : fontKey (mergedFont g f) = fontKey g := rfl

theorem lookupKey_nil (k : String × String × Option String) : lookupKey [] k = none := rfl

theorem lookupKey_cons (g : Font) (rest : List Font) (k : String × String × Option String) :
    lookupKey (g :: rest) k = if fontKey g = k then some g else lookupKey rest k := by
  by_cases h : fontKey g = k
  · simp [lookupKey, List.find?, h]
  · simp [lookupKey, List.find?, h]

theorem mergeStep_lookup_self (acc : List Font) (f : Font) :
    lookupKey (mergeStep acc f) (fontKey f) =
      some (match lookupKey acc (fontKey f) with
        | some g => mergedFont g f
        | none => f) := by
  induction acc with
  | nil => simp [mergeStep, lookupKey_cons, lookupKey_nil]
  | cons g rest ih =>
    by_cases h : fontKey g = fontKey f
    · rw [mergeStep, if_pos h, lookupKey_cons, lookupKey_cons, fontKey_mergedFont,
        if_pos h, if_pos h]
    · rw [mergeStep, if_neg h, lookupKey_cons, lookupKey_cons, if_neg h, if_neg h]
      exact ih

theorem mergeStep_lookup_ne (acc : List Font) (f : Font)
    (k : String × String × Option String) (hk : k ≠ fontKey f) :
    lookupKey (mergeStep acc f) k = lookupKey acc k := by
  induction acc with
  | nil =>
    rw [mergeStep, lookupKey_cons, lookupKey_nil, if_neg (fun he => hk he.symm)]
  | cons g rest ih =>
    by_cases h : fontKey g = fontKey f
    · have h3 : fontKey g ≠ k := fun he => hk (he.symm.trans h)
      rw [mergeStep, if_pos h, lookupKey_cons, lookupKey_cons, fontKey_mergedFont,
        if_neg h3, if_neg h3]
    · rw [mergeStep, if_neg h, lookupKey_cons, lookupKey_cons]
      by_cases h2 : fontKey g = k
      · simp [h2]
      · rw [if_neg h2, if_neg h2]
        exact ih

theorem filter_key_append_self (L : List Font) (f : Font) :
    (L ++ [f]).filter (fun x => decide (fontKey x = fontKey f)) =
      L.filter (fun x => decide (fontKey x = fontKey f)) ++ [f] := by
  simp [List.filter_append]

theorem filter_key_append_ne (L : List Font) (f : Font)
    (k : String × String × Option String) (hk : k ≠ fontKey f) :
    (L ++ [f]).filter (fun x => decide (fontKey x = k)) =
      L.filter (fun x => decide (fontKey x = k)) := by
  have hf : (decide (fontKey f = k)) = false := by simp [Ne.symm hk]
  simp [List.filter_append, hf]

theorem collect_append_key (sel : Font → List String) (L : List Font) (f : Font) :
    collectBy sel (L ++ [f]) (fontKey f) = collectBy sel L (fontKey f) ++ sel f := by
  rw [collectBy, collectBy, filter_key_append_self, List.flatMap_append]
  simp

theorem collect_append_ne (sel : Font → List String) (L : List Font) (f : Font)
    (k : String × String × Option String) (hk : k ≠ fontKey f) :
    collectBy sel (L ++ [f]) k = collectBy sel L k := by
  rw [collectBy, collectBy, filter_key_append_ne _ _ _ hk]

theorem mergeAcc_step {L acc : List Font} (f : Font) (h : MergeAcc L acc) :
    MergeAcc (L ++ [f]) (mergeStep acc f) := by
  intro k
  by_cases hk : k = fontKey f
  · subst hk
    constructor
    · intro g hg
      rw [mergeStep_lookup_self] at hg
      injection hg with hg
      cases hlk : lookupKey acc (fontKey f) with
      | some g₀ =>
        rw [hlk] at hg
        obtain ⟨hw, hs, hsel, -⟩ := (h (fontKey f)).1 g₀ hlk
        subst hg
        refine ⟨?_, ?_, ?_, ?_⟩
        · show ((g₀.weights ++ f.weights).dedup).toFinset = _
          rw [toFinsetDedup, List.toFinset_append, hw, collect_append_key,
            List.toFinset_append]
        · show ((g₀.styles ++ f.styles).dedup).toFinset = _
          rw [toFinsetDedup, List.toFinset_append, hs, collect_append_key,
            List.toFinset_append]
        · show ((g₀.selectors ++ f.selectors).dedup).toFinset = _
          rw [toFinsetDedup, List.toFinset_append, hsel, collect_append_key,
            List.toFinset_append]
        · rw [filter_key_append_self]
          simp
      | none =>
        rw [hlk] at hg
        have hfil := (h (fontKey f)).2 hlk
        have hcol : ∀ sel, collectBy sel L (fontKey f) = [] := by
          intro sel
          rw [collectBy, hfil]
          rfl
        subst hg
        refine ⟨?_, ?_, ?_, ?_⟩
        · rw [collect_append_key, hcol]
          rfl
        · rw [collect_append_key, hcol]
          rfl
        · rw [collect_append_key, hcol]
          rfl
        · rw [filter_key_append_self]
          simp
    · intro hnone
      rw [mergeStep_lookup_self] at hnone
      exact Option.noConfusion hnone
  · constructor
    · intro g hg
      rw [mergeStep_lookup_ne _ _ _ hk] at hg
      obtain ⟨hw, hs, hsel, hne⟩ := (h k).1 g hg
      rw [collect_append_ne _ _ _ _ hk, collect_append_ne _ _ _ _ hk,
        collect_append_ne _ _ _ _ hk, filter_key_append_ne _ _ _ hk]
      exact ⟨hw, hs, hsel, hne⟩
    · intro hnone
      rw [mergeStep_lookup_ne _ _ _ hk] at hnone
      rw [filter_key_append_ne _ _ _ hk]
      exact (h k).2 hnone

theorem mergeAcc_foldl (l : List Font) : ∀ L acc : List Font, MergeAcc L acc →
    MergeAcc (L ++ l) (l.foldl mergeStep acc) := by
  induction l with
  | nil =>
    intro L acc h
    simpa using h
  | cons f t ih =>
    intro L acc h
    have h3 := ih (L ++ [f]) (mergeStep acc f) (mergeAcc_step f h)
    rw [List.foldl_cons]
    rw [show L ++ f :: t = (L ++ [f]) ++ t by simp]
    exact h3

theorem mergeAcc_main (l : List Font) : MergeAcc l (merge_duplicate_fonts l) := by
  have h0 : MergeAcc [] [] := by
    intro k
    constructor
    · intro g hg
      exact Option.noConfusion hg
    · intro _
      rfl
  have h := mergeAcc_foldl l [] [] h0
  simpa [merge_duplicate_fonts] using h

theorem lookupKey_isSome_iff (fonts : List Font) (k : String × String × Option String) :
    (lookupKey fonts k).isSome ↔ k ∈ fonts.map fontKey := by
  rw [lookupKey, List.find?_isSome]
  simp [List.mem_map, eq_comm]

theorem merged_keys_mem (l : List Font) (k : String × String × Option String) :
    k ∈ (merge_duplicate_fonts l).map fontKey ↔ k ∈ l.map fontKey := by
  have hma := mergeAcc_main l
  constructor
  · intro hk
    rw [← lookupKey_isSome_iff] at hk
    obtain ⟨g, hg⟩ := Option.isSome_iff_exists.mp hk
    have hne := ((hma k).1 g hg).2.2.2
    by_contra hmem
    refine hne (List.filter_eq_nil_iff.mpr ?_)
    intro f hf
    simp only [decide_eq_true_eq]
    intro hkey
    exact hmem (List.mem_map.mpr ⟨f, hf, hkey⟩)
  · intro hk
    rw [← lookupKey_isSome_iff]
    cases hlk : lookupKey (merge_duplicate_fonts l) k with
    | none =>
      exfalso
      have hfil := (hma k).2 hlk
      obtain ⟨f, hf, hkey⟩ := List.mem_map.mp hk
      have : f ∈ l.filter (fun x => decide (fontKey x = k)) :=
        List.mem_filter.mpr ⟨hf, by simp [hkey]⟩
      rw [hfil] at this
      exact absurd this (List.not_mem_nil f)
    | some g => rfl

theorem map_fontKey_mergeStep (acc : List Font) (f : Font) :
    (mergeStep acc f).map fontKey =
      if fontKey f ∈ acc.map fontKey then acc.map fontKey
      else acc.map fontKey ++ [fontKey f] := by
  induction acc with
  | nil => simp [mergeStep]
  | cons g rest ih =>
    by_cases h : fontKey g = fontKey f
    · rw [mergeStep, if_pos h]
      simp [fontKey_mergedFont, h]
    · rw [mergeStep, if_neg h]
      simp only [List.map_cons, ih]
      by_cases h2 : fontKey f ∈ rest.map fontKey
      · simp [h2, List.mem_cons]
      · simp only [h2, List.mem_cons, or_false, if_false]
        rw [if_neg (fun hh : fontKey f = fontKey g => h hh.symm)]
        simp

theorem nodup_keys_merge (l : List Font) :
    ((merge_duplicate_fonts l).map fontKey).Nodup := by
  suffices h : ∀ acc : List Font, (acc.map fontKey).Nodup →
      ((l.foldl mergeStep acc).map fontKey).Nodup by
    exact h [] (by simp)
  induction l with
  | nil =>
    intro acc h
    simpa using h
  | cons f t ih =>
    intro acc h
    rw [List.foldl_cons]
    apply ih
    rw [map_fontKey_mergeStep]
    by_cases h2 : fontKey f ∈ acc.map fontKey
    · simpa [h2] using h
    · rw [if_neg h2]
      rw [List.nodup_append]
      refine ⟨h, List.nodup_singleton _, ?_⟩
      intro a ha hb
      rw [List.mem_singleton] at hb
      subst hb
      exact h2 ha

theorem mergeStep_not_mem (acc : List Font) (f : Font)
    (h : fontKey f ∉ acc.map fontKey) : mergeStep acc f = acc ++ [f] := by
  induction acc with
  | nil => rfl
  | cons g rest ih =>
    have h1 : fontKey g ≠ fontKey f := by
      intro he
      exact h (by simp [← he])
    have h2 : fontKey f ∉ rest.map fontKey := by
      intro hm
      exact h (by simp [hm])
    rw [mergeStep, if_neg h1, ih h2, List.cons_append]

theorem foldl_mergeStep_of_nodup (l : List Font) : ∀ acc : List Font,
    ((acc ++ l).map fontKey).Nodup → l.foldl mergeStep acc = acc ++ l := by
  induction l with
  | nil =>
    intro acc _
    simp
  | cons f t ih =>
    intro acc h
    have hf : fontKey f ∉ acc.map fontKey := by
      intro hm
      rw [List.map_append, List.nodup_append] at h
      exact h.2.2 hm (by simp)
    rw [List.foldl_cons, mergeStep_not_mem acc f hf]
    have h2 : (((acc ++ [f]) ++ t).map fontKey).Nodup := by
      rw [List.append_assoc]
      simpa using h
    rw [ih (acc ++ [f]) h2]
    simp

theorem merge_duplicate_fonts_idem (l : List Font) :
    merge_duplicate_fonts (merge_duplicate_fonts l) = merge_duplicate_fonts l := by
  have h := foldl_mergeStep_of_nodup (merge_duplicate_fonts l) []
    (by simpa using nodup_keys_merge l)
  simpa [merge_duplicate_fonts] using h

/-- Claim C2: `merge_duplicate_fonts` is idempotent, and order-independent
with respect to identity-key grouping: a permutation of the input leaves
the set of merged `(name, type, source)` keys unchanged, and for each key
the merged entry's weights, styles and selectors agree as sets. -/
theorem merge_duplicate_fonts_idem_perm (l l' : List Font) (hperm : l.Perm l') :
    merge_duplicate_fonts (merge_duplicate_fonts l) = merge_duplicate_fonts l ∧
    ((merge_duplicate_fonts l).map fontKey).toFinset =
      ((merge_duplicate_fonts l').map fontKey).toFinset ∧
    ∀ k g g₁, lookupKey (merge_duplicate_fonts l) k = some g →
      lookupKey (merge_duplicate_fonts l') k = some g₁ →
      g.weights.toFinset = g₁.weights.toFinset ∧
      g.styles.toFinset = g₁.styles.toFinset ∧
      g.selectors.toFinset = g₁.selectors.toFinset := by
  refine ⟨merge_duplicate_fonts_idem l, ?_, ?_⟩
  · ext k
    simp only [List.mem_toFinset]
    rw [merged_keys_mem, merged_keys_mem]
    exact (hperm.map fontKey).mem_iff
  · intro k g g₁ hg hg₁
    obtain ⟨hw, hs, hsel, -⟩ := ((mergeAcc_main l) k).1 g hg
    obtain ⟨hw₁, hs₁, hsel₁, -⟩ := ((mergeAcc_main l') k).1 g₁ hg₁
    have hcol : ∀ sel : Font → List String,
        (collectBy sel l k).toFinset = (collectBy sel l' k).toFinset := by
      intro sel
      exact toFinsetPerm ((hperm.filter _).flatMap_right sel)
    exact ⟨by rw [hw, hw₁, hcol], by rw [hs, hs₁, hcol], by rw [hsel, hsel₁, hcol]⟩

/-- Claim C2 witness: the merge specification evaluated on a two-element
same-key list and its transposition. -/
theorem merge_duplicate_fonts_idem_perm_witness :
    merge_duplicate_fonts (merge_duplicate_fonts [permFontA, permFontB]) =
      merge_duplicate_fonts [permFontA, permFontB] ∧
    ((merge_duplicate_fonts [permFontA, permFontB]).map fontKey).toFinset =
      ((merge_duplicate_fonts [permFontB, permFontA]).map fontKey).toFinset ∧
    ∀ k g g₁, lookupKey (merge_duplicate_fonts [permFontA, permFontB]) k = some g →
      lookupKey (merge_duplicate_fonts [permFontB, permFontA]) k = some g₁ →
      g.weights.toFinset = g₁.weights.toFinset ∧
      g.styles.toFinset = g₁.styles.toFinset ∧
      g.selectors.toFinset = g₁.selectors.toFinset :=
  merge_duplicate_fonts_idem_perm [permFontA, permFontB] [permFontB, permFontA]
    (List.Perm.swap permFontB permFontA [])

/-! ## Claim C6 -/

theorem heapGet_set_ne (heap : List Font) (n : Nat) (v : Font) (m : Nat) (h : n ≠ m) :
    heapGet (heap.set n v) m = heapGet heap m := by
  induction heap generalizing n m with
  | nil => simp [List.set]
  | cons a t ih =>
    cases n with
    | zero =>
      cases m with
      | zero => exact absurd rfl h
      | succ m₁ => simp [List.set, heapGet, List.getD_cons_succ]
    | succ n₁ =>
      cases m with
      | zero => simp [List.set, heapGet, List.getD_cons_zero]
      | succ m₁ =>
        simp only [List.set, heapGet, List.getD_cons_succ]
        exact ih n₁ m₁ (fun he => h (by rw [he]))

theorem heapGet_set_self (heap : List Font) (n : Nat) (v : Font) (h : n < heap.length) :
    heapGet (heap.set n v) n = v := by
  induction heap generalizing n with
  | nil => simp at h
  | cons a t ih =>
    cases n with
    | zero => simp [List.set, heapGet, List.getD_cons_zero]
    | succ n₁ =>
      simp only [List.set, heapGet, List.getD_cons_succ]
      exact ih n₁ (by simpa using h)

theorem find?_append_none {α : Type} (p : α → Bool) {l₁ l₂ : List α}
    (h₁ : l₁.find? p = none) (h₂ : l₂.find? p = none) : (l₁ ++ l₂).find? p = none := by
  induction l₁ with
  | nil => simpa using h₂
  | cons a t ih =>
    rw [List.find?_eq_none] at h₁ ⊢
    intro x hx
    rcases List.mem_append.mp hx with hx | hx
    · exact h₁ x hx
    · exact (List.find?_eq_none.mp h₂) x hx

theorem mergeHeap_preserves_aux (pending : List Nat) :
    ∀ (heap : List Font) (fmap : List ((String × String × Option String) × Nat)) (i : Nat),
    (∀ p ∈ fmap, fontKey (heapGet heap p.2) = p.1) →
    (∀ j ∈ pending, fontKey (heapGet heap j) = fontKey (heapGet heap i) → j = i) →
    pending.count i ≤ 1 →
    (fmap.find? (fun p => decide (p.1 = fontKey (heapGet heap i))) = none ∨ i ∉ pending) →
    heapGet (mergeHeapRun heap fmap pending).1 i = heapGet heap i := by
  induction pending with
  | nil =>
    intro heap fmap i _ _ _ _
    rfl
  | cons j rest ih =>
    intro heap fmap i hinv huniq hcnt hnone
    have hcnt2 : rest.count i ≤ 1 := by
      have hle : rest.count i ≤ (j :: rest).count i := by
        rw [List.count_cons]
        split <;> omega
      exact le_trans hle hcnt
    simp only [mergeHeapRun]
    cases hfind : fmap.find? (fun p => decide (p.1 = fontKey (heapGet heap j))) with
    | some p =>
      have hpmem : p ∈ fmap := List.mem_of_find?_eq_some hfind
      have hp1 : p.1 = fontKey (heapGet heap j) := by
        have hps := List.find?_some hfind
        simpa using hps
      have hkey2 : fontKey (heapGet heap p.2) = p.1 := hinv p hpmem
      have hstable : ∀ m, fontKey (heapGet
          (heap.set p.2 (mergedFont (heapGet heap p.2) (heapGet heap j))) m) =
          fontKey (heapGet heap m) := by
        intro m
        by_cases hm : p.2 = m
        · subst hm
          by_cases hlen : p.2 < heap.length
          · rw [heapGet_set_self _ _ _ hlen, fontKey_mergedFont]
          · rw [List.set_eq_of_length_le (Nat.le_of_not_lt hlen)]
        · rw [heapGet_set_ne _ _ _ _ hm]
      have hpi : p.2 ≠ i := by
        intro hpi
        have hki : fontKey (heapGet heap i) = fontKey (heapGet heap j) := by
          rw [← hpi, hkey2, hp1]
        have hji : j = i := huniq j (List.mem_cons_self j rest) hki.symm
        rcases hnone with hL | hR
        · rw [hki, hfind] at hL
          exact Option.noConfusion hL
        · refine hR ?_
          rw [← hji]
          exact List.mem_cons_self j rest
      have hget : heapGet (heap.set p.2 (mergedFont (heapGet heap p.2) (heapGet heap j))) i
          = heapGet heap i := heapGet_set_ne _ _ _ _ hpi
      have hrec := ih (heap.set p.2 (mergedFont (heapGet heap p.2) (heapGet heap j))) fmap i
        (fun q hq => (hstable q.2).trans (hinv q hq))
        (fun m hm he => huniq m (List.mem_cons_of_mem j hm)
          (by rw [← hstable m, he, hstable i]))
        hcnt2
        (by
          rcases hnone with hL | hR
          · left
            simp only [hstable i]
            exact hL
          · right
            exact fun hm => hR (List.mem_cons_of_mem j hm))
      simp only [hfind]
      exact hrec.trans hget
    | none =>
      simp only [hfind]
      apply ih
      · intro q hq
        rcases List.mem_append.mp hq with hq | hq
        · exact hinv q hq
        · rw [List.mem_singleton] at hq
          subst hq
          rfl
      · exact fun m hm he => huniq m (List.mem_cons_of_mem j hm) he
      · exact hcnt2
      · rcases hnone with hL | hR
        · by_cases hji : j = i
          · subst hji
            right
            have h0 : rest.count j = 0 := by
              rw [List.count_cons] at hcnt
              simp at hcnt
              omega
            exact List.count_eq_zero.mp h0
          · left
            apply find?_append_none _ hL
            have hne : fontKey (heapGet heap j) ≠ fontKey (heapGet heap i) :=
              fun he => hji (huniq j (List.mem_cons_self j rest) he)
            simp [List.find?, hne]
        · right
          exact fun hm => hR (List.mem_cons_of_mem j hm)

/-- Claim C6 counterexample: with two same-key input fonts the merge engine
mutates the first input object in place — after the call the heap cell of
input 0 holds the merged weights, no longer its original value. -/
theorem merge_mutates_first_duplicate_cex :
    heapGet (mergeHeapRun [mutFontA, mutFontB] [] [0, 1]).1 0 ≠
      heapGet [mutFontA, mutFontB] 0 ∧
    (heapGet (mergeHeapRun [mutFontA, mutFontB] [] [0, 1]).1 0).weights =
      ["400", "700"] ∧ mutFontA.weights = ["400"] := by
  refine ⟨by decide, by decide, by decide⟩

/-- Claim C6 (amended): `merge_duplicate_fonts` mutates, in place, the
first input Font stored for each identity key when a later same-key font
is merged into it (the stored object is the accumulator); every input
object whose identity key occurs only once among the inputs is unchanged
by the call. -/
theorem merge_preserves_unique_key_inputs (heap : List Font) (ids : List Nat) (i : Nat)
    (_hmem : i ∈ ids) (hcount : ids.count i ≤ 1)
    (huniq : ∀ j ∈ ids, fontKey (heapGet heap j) = fontKey (heapGet heap i) → j = i) :
    heapGet (mergeHeapRun heap [] ids).1 i = heapGet heap i :=
  mergeHeap_preserves_aux ids heap [] i (by simp) huniq hcount (Or.inl rfl)

/-- Claim C6 witness: in a three-font heap where inputs 0 and 1 share a key
and input 2 has a unique key, input 2 is unchanged by the merge. -/
theorem merge_preserves_unique_key_inputs_witness :
    heapGet (mergeHeapRun [mutFontA, mutFontB, mutFontC] [] [0, 1, 2]).1 2 =
      heapGet [mutFontA, mutFontB, mutFontC] 2 :=
  merge_preserves_unique_key_inputs [mutFontA, mutFontB, mutFontC] [0, 1, 2] 2
    (by decide) (by decide) (by decide)
